import Mathlib

/-!
Verification of the dev-notes tool server (`src/index.js`).

Strings are modelled as lists of Unicode code points (`List Nat`), which is
faithful to JavaScript's per-code-unit string operations for the character
classes involved here (the regex classes `\w`, `\s` and the literal `-`, all
of which live in the basic planes).  `toLowerCase` is modelled on the ASCII
range; characters outside ASCII are unaffected by the claims because they are
removed by the `[^\w\s-]` filter either way.

The filesystem store is modelled as an explicit state record: a flag for
whether the notes directory exists, an association list from filename to
(content, last-modified date string), and the date the filesystem clock would
record on a write.  Each handler of the source is a function from this state
to a result plus the successor state.
-/

/-- A JavaScript string, as its list of code points. -/
abbrev JStr := List Nat

/-- Code points of a Lean string literal, for writing concrete examples. -/
def jstr (s : String) : JStr := s.data.map Char.toNat

/-- The code point of `-`. -/
def hyphen : Nat := 45

/-- JavaScript's `\s` class (also the set removed by `String.prototype.trim`):
tab through carriage return, space, no-break space, ogham space mark, the
general punctuation spaces, line/paragraph separator, narrow no-break space,
medium mathematical space, ideographic space, and the BOM. -/
def jsIsSpace (n : Nat) : Bool :=
  (9 ≤ n && n ≤ 13) || n == 32 || n == 160 || n == 5760 ||
  (8192 ≤ n && n ≤ 8202) || n == 8232 || n == 8233 || n == 8239 ||
  n == 8287 || n == 12288 || n == 65279

/-- JavaScript's `\w` class: ASCII digits, letters and underscore. -/
def jsIsWordChar (n : Nat) : Bool :=
  (48 ≤ n && n ≤ 57) || (65 ≤ n && n ≤ 90) || (97 ≤ n && n ≤ 122) || n == 95

/-- One step of `String.prototype.toLowerCase` (ASCII case mapping). -/
def jsToLowerChar (n : Nat) : Nat :=
  if 65 ≤ n && n ≤ 90 then n + 32 else n

/-- Embeds `String.prototype.trim`: drop leading and trailing whitespace. -/
def jsTrim (l : JStr) : JStr :=
  ((l.dropWhile jsIsSpace).reverse.dropWhile jsIsSpace).reverse

/-- The step `.replace(/[^\w\s-]/g, "")` of `slugify`: delete every character
that is not a word character, whitespace, or a hyphen. -/
def removeNonWord (l : JStr) : JStr :=
  l.filter (fun n => jsIsWordChar n || jsIsSpace n || n == hyphen)

/-- State machine for the `slugify` step that replaces, globally, each
maximal whitespace run by a single hyphen: the flag records whether the
previous character was whitespace (i.e. whether a run is already open, in
which case further whitespace is swallowed). -/
def replaceWsRunsAux : Bool → JStr → JStr
  | _, [] => []
  | prev, n :: ns =>
    if jsIsSpace n then
      (if prev then replaceWsRunsAux true ns else hyphen :: replaceWsRunsAux true ns)
    else n :: replaceWsRunsAux false ns

/-- The `slugify` step replacing each maximal whitespace run by one hyphen. -/
def replaceWsRuns (l : JStr) : JStr := replaceWsRunsAux false l

/-- State machine for the `slugify` step that collapses, globally, each
maximal run of hyphens into a single hyphen: the flag records whether the
previous character was a hyphen. -/
def collapseHyphensAux : Bool → JStr → JStr
  | _, [] => []
  | prev, n :: ns =>
    if n == hyphen then
      (if prev then collapseHyphensAux true ns else hyphen :: collapseHyphensAux true ns)
    else n :: collapseHyphensAux false ns

/-- The `slugify` step collapsing each maximal hyphen run into one hyphen. -/
def collapseHyphens (l : JStr) : JStr := collapseHyphensAux false l

/-- Function `slugify` from `src/index.js`: lower-case, trim, delete characters
outside word/whitespace/hyphen, map whitespace runs to single hyphens, then
collapse hyphen runs. -/
def slugify (text : JStr) : JStr :=
  collapseHyphens (replaceWsRuns (removeNonWord (jsTrim (text.map jsToLowerChar))))

/-- The code points of `".md"`. -/
def mdExt : JStr := jstr ".md"

/-- The notes store: whether the notes directory exists, its files as an
association list from filename to (content, last-modified date string), and
the date string the filesystem would stamp on a write (`stat.mtime` formatted
as in the source, `toISOString().split("T")[0]`). -/
structure NoteStore where
  dirExists : Bool
  files : List (JStr × JStr × JStr)
  today : JStr
  deriving DecidableEq

/-- Function `ensureNotesDir` from the source: create the directory if absent
(idempotent; touches nothing else). -/
def ensureNotesDir (s : NoteStore) : NoteStore :=
  ⟨true, s.files, s.today⟩

/-- Embeds `fs.writeFileSync`: overwrite the file with that name if present,
create it otherwise, stamping the current date. -/
def writeFile (fs : List (JStr × JStr × JStr)) (name content today : JStr) :
    List (JStr × JStr × JStr) :=
  fs.filter (fun f => !(f.1 == name)) ++ [(name, content, today)]

/-- Embeds `fs.existsSync` plus `fs.readFileSync`: the content stored under
`name`, if the file exists. -/
def readFile (fs : List (JStr × JStr × JStr)) (name : JStr) : Option JStr :=
  (fs.find? (fun f => f.1 == name)).map (fun f => f.2.1)

/-- A tool handler result: `{ type: "text", text: ... }`. -/
structure ToolResult where
  type : JStr
  text : JStr
  deriving DecidableEq

/-- Handler `handleSaveNote(title, content)` from the source. -/
def handleSaveNote (title content : JStr) (s : NoteStore) : ToolResult × NoteStore :=
  let s1 := ensureNotesDir s
  let filename := slugify title ++ mdExt
  let s2 : NoteStore := ⟨s1.dirExists, writeFile s1.files filename content s1.today, s1.today⟩
  (⟨jstr "text", jstr "Note saved successfully: " ++ filename⟩, s2)

/-- Embeds `file.endsWith(".md")`. -/
def endsWithMd (name : JStr) : Bool := mdExt.isSuffixOf name

/-- Embeds `l.replace(pat, rep)` with a string pattern: replace the first occurrence
of `pat`, or return the string unchanged when `pat` does not occur. -/
def replaceFirst (pat rep : JStr) : JStr → JStr
  | [] => if pat == ([] : JStr) then rep else []
  | c :: cs =>
    if pat.isPrefixOf (c :: cs) then rep ++ (c :: cs).drop pat.length
    else c :: replaceFirst pat rep cs

/-- The display title `list_notes` derives from a filename: remove the first
occurrence of ".md", then replace every hyphen by a space. -/
def displayTitle (file : JStr) : JStr :=
  (replaceFirst mdExt [] file).map (fun n => if n == hyphen then 32 else n)

/-- One line of the `list_notes` output:
"- **title** (file) - Modified: date". -/
def entryLine (f : JStr × JStr × JStr) : JStr :=
  jstr "- **" ++ displayTitle f.1 ++ jstr "** (" ++ f.1 ++ jstr ") - Modified: " ++ f.2.2

/-- The files `list_notes` enumerates: directory entries ending in ".md". -/
def listedFiles (s : NoteStore) : List (JStr × JStr × JStr) :=
  s.files.filter (fun f => endsWithMd f.1)

/-- Handler `handleListNotes()` from the source. -/
def handleListNotes (s : NoteStore) : ToolResult × NoteStore :=
  let s1 := ensureNotesDir s
  let files := s1.files.filter (fun f => endsWithMd f.1)
  if files.length == 0 then
    (⟨jstr "text", jstr "No notes found in ~/dev-notes/"⟩, s1)
  else
    (⟨jstr "text",
      jstr "Available notes:\n\n" ++ List.intercalate (jstr "\n") (files.map entryLine)⟩, s1)

/-- Handler `handleReadNote(title)` from the source. -/
def handleReadNote (title : JStr) (s : NoteStore) : ToolResult × NoteStore :=
  let s1 := ensureNotesDir s
  let filename := slugify title ++ mdExt
  match readFile s1.files filename with
  | none => (⟨jstr "text", jstr "Note not found: " ++ filename⟩, s1)
  | some content => (⟨jstr "text", content⟩, s1)

/-- The argument bundle of a tool invocation; `none` models a field absent
from the JSON arguments (JavaScript `undefined`). -/
structure ToolArgs where
  title : Option JStr
  content : Option JStr

/-- Dispatcher `processToolCall(name, args)` from the source.  `none` models the
uncaught TypeError thrown when a handler dereferences an absent argument
(`slugify(undefined)` / `writeFileSync(path, undefined)`); every present
case returns the handler's result. -/
def processToolCall (name : JStr) (args : ToolArgs) (s : NoteStore) :
    Option (ToolResult × NoteStore) :=
  if name == jstr "save_note" then
    match args.title, args.content with
    | some t, some c => some (handleSaveNote t c s)
    | _, _ => none
  else if name == jstr "list_notes" then
    some (handleListNotes s)
  else if name == jstr "read_note" then
    match args.title with
    | some t => some (handleReadNote t s)
    | none => none
  else
    some (⟨jstr "text", jstr "Unknown tool: " ++ name⟩, s)

/-- A store whose notes directory does not exist yet and is empty. -/
def emptyStore (today : JStr) : NoteStore := ⟨false, [], today⟩
/-- The characters that can appear in a slug: ASCII lower-case letters,
digits, underscore, hyphen. -/
def slugChar (n : Nat) : Bool :=
  (97 ≤ n && n ≤ 122) || (48 ≤ n && n ≤ 57) || n == 95 || n == hyphen

/-- No two consecutive characters of the list are both hyphens. -/
def noConsecHyphens : JStr → Bool
  | [] => true
  | [_] => true
  | a :: b :: t => !(a == hyphen && b == hyphen) && noConsecHyphens (b :: t)

/-- The spec's wording of the whitespace step, stated independently of the
implementation's state machine: "replace each run of whitespace with a single
hyphen" — on meeting a whitespace character, emit one hyphen and skip the
whole maximal run. -/
def specSquashWsRuns : JStr → JStr
  | [] => []
  | n :: ns =>
    if jsIsSpace n then hyphen :: specSquashWsRuns (ns.dropWhile jsIsSpace)
    else n :: specSquashWsRuns ns
termination_by l => l.length
decreasing_by
  all_goals simp only [List.length_cons]
  · exact Nat.lt_succ_of_le ((List.dropWhile_sublist _).length_le)
  · exact Nat.lt_succ_self _

/-- The spec's wording of the hyphen step: "collapse each run of consecutive
hyphens into one" — on meeting a hyphen, emit one and skip the maximal run. -/
def specCollapseHyphenRuns : JStr → JStr
  | [] => []
  | n :: ns =>
    if n == hyphen then hyphen :: specCollapseHyphenRuns (ns.dropWhile (fun m => m == hyphen))
    else n :: specCollapseHyphenRuns ns
termination_by l => l.length
decreasing_by
  all_goals simp only [List.length_cons]
  · exact Nat.lt_succ_of_le ((List.dropWhile_sublist _).length_le)
  · exact Nat.lt_succ_self _

/-- The reference pipeline exactly as §4.1 of the spec words it: lower-case;
trim; remove every character that is not a word character, whitespace, or
hyphen; replace each whitespace run with a single hyphen; collapse each
hyphen run into one. -/
def slugifySpec (text : JStr) : JStr :=
  specCollapseHyphenRuns (specSquashWsRuns (removeNonWord (jsTrim (text.map jsToLowerChar))))

/-- Save each (title, content) pair in order, like successive `save_note`
calls. -/
def saveAll (ps : List (JStr × JStr)) (s : NoteStore) : NoteStore :=
  ps.foldl (fun st p => (handleSaveNote p.1 p.2 st).2) s

/-- Replace every hyphen by a space (the second half of the display-title
derivation in `list_notes`). -/
def hyphensToSpaces (l : JStr) : JStr := l.map (fun n => if n == hyphen then 32 else n)

/-- The display-title derivation as claim C6 words it: remove the ".md"
extension (the trailing ".md"), then replace hyphens with spaces.  To be
compared with `displayTitle`, which removes the first occurrence of ".md". -/
def claimedTitleOf (file : JStr) : JStr :=
  hyphensToSpaces (if mdExt.isSuffixOf file then file.take (file.length - mdExt.length) else file)

/-- A concrete directory state containing a file whose name holds ".md" twice:
here `list_notes` derives the title by removing the FIRST occurrence of ".md",
not the extension. -/
def cexStore : NoteStore :=
  ⟨true, [(jstr "x.mda.md", jstr "c", jstr "2024-01-01")], jstr "2024-01-01"⟩

lemma slugChar_not_space {n : Nat} (h : slugChar n = true) : jsIsSpace n = false := by
  simp [slugChar, hyphen] at h
  simp [jsIsSpace]
  omega

lemma slugChar_keep {n : Nat} (h : slugChar n = true) :
    (jsIsWordChar n || jsIsSpace n || n == hyphen) = true := by
  simp [slugChar, hyphen] at h
  simp [jsIsWordChar, jsIsSpace, hyphen]
  omega

lemma slugChar_toLower {n : Nat} (h : slugChar n = true) : jsToLowerChar n = n := by
  simp [slugChar, hyphen] at h
  simp [jsToLowerChar]
  omega

lemma jsToLowerChar_not_upper (m : Nat) : ¬(65 ≤ jsToLowerChar m ∧ jsToLowerChar m ≤ 90) := by
  simp [jsToLowerChar]
  split <;> omega

lemma mem_map_toLower {l : JStr} {n : Nat} (h : n ∈ l.map jsToLowerChar) :
    ¬(65 ≤ n ∧ n ≤ 90) := by
  rcases List.mem_map.mp h with ⟨m, _, rfl⟩
  exact jsToLowerChar_not_upper m

lemma dropWhile_id_of {p : Nat → Bool} {l : JStr} (h : ∀ a ∈ l, p a = false) :
    l.dropWhile p = l := by
  cases l with
  | nil => rfl
  | cons c cs => simp [List.dropWhile, h c (by simp)]

lemma mem_jsTrim {l : JStr} {n : Nat} (h : n ∈ jsTrim l) : n ∈ l := by
  unfold jsTrim at h
  rw [List.mem_reverse] at h
  have h2 := (List.dropWhile_sublist jsIsSpace).mem h
  rw [List.mem_reverse] at h2
  exact (List.dropWhile_sublist jsIsSpace).mem h2

lemma jsTrim_id {l : JStr} (h : ∀ a ∈ l, jsIsSpace a = false) : jsTrim l = l := by
  unfold jsTrim
  rw [dropWhile_id_of h, dropWhile_id_of (by intro a ha; exact h a (List.mem_reverse.mp ha)),
    List.reverse_reverse]

lemma mem_removeNonWord {l : JStr} {n : Nat} (h : n ∈ removeNonWord l) :
    n ∈ l ∧ (jsIsWordChar n || jsIsSpace n || n == hyphen) = true := by
  unfold removeNonWord at h
  exact ⟨(List.mem_filter.mp h).1, (List.mem_filter.mp h).2⟩

lemma removeNonWord_id {l : JStr}
    (h : ∀ a ∈ l, (jsIsWordChar a || jsIsSpace a || a == hyphen) = true) :
    removeNonWord l = l :=
  List.filter_eq_self.mpr h

lemma rwra_space_true {n : Nat} {ns : JStr} (h : jsIsSpace n = true) :
    replaceWsRunsAux true (n :: ns) = replaceWsRunsAux true ns := by
  simp [replaceWsRunsAux, h]

lemma rwra_space_false {n : Nat} {ns : JStr} (h : jsIsSpace n = true) :
    replaceWsRunsAux false (n :: ns) = hyphen :: replaceWsRunsAux true ns := by
  simp [replaceWsRunsAux, h]

lemma rwra_nonspace {n : Nat} {ns : JStr} {prev : Bool} (h : jsIsSpace n = false) :
    replaceWsRunsAux prev (n :: ns) = n :: replaceWsRunsAux false ns := by
  simp [replaceWsRunsAux, h]

lemma cha_hyphen_true {ns : JStr} :
    collapseHyphensAux true (hyphen :: ns) = collapseHyphensAux true ns := rfl

lemma cha_hyphen_false {ns : JStr} :
    collapseHyphensAux false (hyphen :: ns) = hyphen :: collapseHyphensAux true ns := rfl

lemma cha_ne {n : Nat} {ns : JStr} {prev : Bool} (h : n ≠ hyphen) :
    collapseHyphensAux prev (n :: ns) = n :: collapseHyphensAux false ns := by
  simp [collapseHyphensAux, h]

lemma mem_replaceWsRunsAux {n : Nat} :
    ∀ (l : JStr) (prev : Bool), n ∈ replaceWsRunsAux prev l →
      n = hyphen ∨ (n ∈ l ∧ jsIsSpace n = false) := by
  intro l
  induction l with
  | nil => intro prev h; simp [replaceWsRunsAux] at h
  | cons a t ih =>
    intro prev h
    by_cases ha : jsIsSpace a = true
    · have h' : n = hyphen ∨ n ∈ replaceWsRunsAux true t := by
        cases prev
        · rw [rwra_space_false ha] at h
          rcases List.mem_cons.mp h with rfl | h2
          · exact Or.inl rfl
          · exact Or.inr h2
        · rw [rwra_space_true ha] at h
          exact Or.inr h
      rcases h' with rfl | h2
      · exact Or.inl rfl
      · rcases ih true h2 with h3 | ⟨h3, h4⟩
        · exact Or.inl h3
        · exact Or.inr ⟨List.mem_cons_of_mem _ h3, h4⟩
    · rw [rwra_nonspace (by simpa using ha)] at h
      rcases List.mem_cons.mp h with rfl | h2
      · exact Or.inr ⟨List.mem_cons_self _ _, by simpa using ha⟩
      · rcases ih false h2 with h3 | ⟨h3, h4⟩
        · exact Or.inl h3
        · exact Or.inr ⟨List.mem_cons_of_mem _ h3, h4⟩

lemma replaceWsRunsAux_id :
    ∀ (l : JStr), (∀ a ∈ l, jsIsSpace a = false) → ∀ prev, replaceWsRunsAux prev l = l := by
  intro l
  induction l with
  | nil => intro _ _; rfl
  | cons a t ih =>
    intro h prev
    rw [rwra_nonspace (h a (List.mem_cons_self a t)),
      ih (fun x hx => h x (List.mem_cons_of_mem _ hx)) false]

lemma mem_collapseHyphensAux {n : Nat} :
    ∀ (l : JStr) (prev : Bool), n ∈ collapseHyphensAux prev l → n ∈ l := by
  intro l
  induction l with
  | nil => intro prev h; simp [collapseHyphensAux] at h
  | cons a t ih =>
    intro prev h
    by_cases ha : a = hyphen
    · subst ha
      have h' : n = hyphen ∨ n ∈ collapseHyphensAux true t := by
        cases prev
        · rw [cha_hyphen_false] at h
          rcases List.mem_cons.mp h with rfl | h2
          · exact Or.inl rfl
          · exact Or.inr h2
        · rw [cha_hyphen_true] at h
          exact Or.inr h
      rcases h' with rfl | h2
      · exact List.mem_cons_self _ _
      · exact List.mem_cons_of_mem _ (ih true h2)
    · rw [cha_ne ha] at h
      rcases List.mem_cons.mp h with rfl | h2
      · exact List.mem_cons_self _ _
      · exact List.mem_cons_of_mem _ (ih false h2)

lemma noConsecHyphens_cons {a : Nat} {l : JStr} (h1 : noConsecHyphens l = true)
    (h2 : ∀ x, l.head? = some x → ¬(a = hyphen ∧ x = hyphen)) :
    noConsecHyphens (a :: l) = true := by
  cases l with
  | nil => rfl
  | cons b t =>
    have := h2 b rfl
    simp only [noConsecHyphens, h1, Bool.and_true, Bool.not_eq_true']
    simp only [Bool.and_eq_false_iff, beq_eq_false_iff_ne, ne_eq]
    tauto

lemma noConsec_tail {a : Nat} {t : JStr} (h : noConsecHyphens (a :: t) = true) :
    noConsecHyphens t = true := by
  cases t with
  | nil => rfl
  | cons b t' =>
    simp only [noConsecHyphens, Bool.and_eq_true] at h
    exact h.2

lemma noConsec_head {a : Nat} {t : JStr} (h : noConsecHyphens (a :: t) = true)
    (ha : a = hyphen) : ∀ x, t.head? = some x → x ≠ hyphen := by
  cases t with
  | nil => intro x hx; simp at hx
  | cons b t' =>
    intro x hx
    simp only [List.head?_cons, Option.some.injEq] at hx
    subst hx
    subst ha
    simp only [noConsecHyphens, Bool.and_eq_true, Bool.not_eq_true',
      Bool.and_eq_false_iff, beq_eq_false_iff_ne, ne_eq, beq_self_eq_true] at h
    tauto

lemma collapseHyphensAux_true_headOpt :
    ∀ (l : JStr) (x : Nat), (collapseHyphensAux true l).head? = some x → x ≠ hyphen := by
  intro l
  induction l with
  | nil => intro x h; simp [collapseHyphensAux] at h
  | cons a t ih =>
    intro x h
    by_cases ha : a = hyphen
    · subst ha
      rw [cha_hyphen_true] at h
      exact ih x h
    · rw [cha_ne ha] at h
      simp only [List.head?_cons, Option.some.injEq] at h
      subst h
      exact ha

lemma collapseHyphensAux_noConsec :
    ∀ (l : JStr) (prev : Bool), noConsecHyphens (collapseHyphensAux prev l) = true := by
  intro l
  induction l with
  | nil => intro _; rfl
  | cons a t ih =>
    intro prev
    by_cases ha : a = hyphen
    · subst ha
      cases prev
      · rw [cha_hyphen_false]
        exact noConsecHyphens_cons (ih true)
          (fun x hx hand => collapseHyphensAux_true_headOpt t x hx hand.2)
      · rw [cha_hyphen_true]
        exact ih true
    · rw [cha_ne ha]
      exact noConsecHyphens_cons (ih false) (fun x _ hand => ha hand.1)

lemma collapseHyphensAux_true_eq_false {l : JStr}
    (h : ∀ x, l.head? = some x → x ≠ hyphen) :
    collapseHyphensAux true l = collapseHyphensAux false l := by
  cases l with
  | nil => rfl
  | cons a t => rw [cha_ne (h a rfl), cha_ne (h a rfl)]

lemma collapseHyphensAux_id :
    ∀ (l : JStr), noConsecHyphens l = true → collapseHyphensAux false l = l := by
  intro l
  induction l with
  | nil => intro _; rfl
  | cons a t ih =>
    intro h
    by_cases ha : a = hyphen
    · subst ha
      rw [cha_hyphen_false, collapseHyphensAux_true_eq_false (noConsec_head h rfl),
        ih (noConsec_tail h)]
    · rw [cha_ne ha, ih (noConsec_tail h)]

lemma map_id_of_mem {f : Nat → Nat} {l : JStr} (h : ∀ a ∈ l, f a = a) : l.map f = l := by
  induction l <;> simp_all

lemma slugify_mem_slugChar {l : JStr} {n : Nat} (h : n ∈ slugify l) : slugChar n = true := by
  unfold slugify collapseHyphens replaceWsRuns at h
  have h1 := mem_collapseHyphensAux _ false h
  rcases mem_replaceWsRunsAux _ false h1 with rfl | ⟨h2, hns⟩
  · simp [slugChar, hyphen]
  · rcases mem_removeNonWord h2 with ⟨h3, hkeep⟩
    have hup := mem_map_toLower (mem_jsTrim h3)
    simp [jsIsWordChar, jsIsSpace, hyphen] at hkeep hns
    simp [slugChar, hyphen]
    omega

lemma slugify_noConsec (l : JStr) : noConsecHyphens (slugify l) = true :=
  collapseHyphensAux_noConsec _ false

lemma slugify_fixpoint {l : JStr} (hc : ∀ n ∈ l, slugChar n = true)
    (hn : noConsecHyphens l = true) : slugify l = l := by
  unfold slugify replaceWsRuns collapseHyphens
  rw [map_id_of_mem (fun a ha => slugChar_toLower (hc a ha)),
    jsTrim_id (fun a ha => slugChar_not_space (hc a ha)),
    removeNonWord_id (fun a ha => slugChar_keep (hc a ha)),
    replaceWsRunsAux_id _ (fun a ha => slugChar_not_space (hc a ha)) false,
    collapseHyphensAux_id _ hn]

lemma slugify_idem (l : JStr) : slugify (slugify l) = slugify l :=
  slugify_fixpoint (fun _ hn => slugify_mem_slugChar hn) (slugify_noConsec l)

lemma rwra_eq_spec : ∀ l : JStr,
    replaceWsRunsAux false l = specSquashWsRuns l ∧
    replaceWsRunsAux true l = specSquashWsRuns (l.dropWhile jsIsSpace) := by
  intro l
  induction l with
  | nil => constructor <;> simp [specSquashWsRuns, replaceWsRunsAux]
  | cons a t ih =>
    by_cases ha : jsIsSpace a = true
    · constructor
      · rw [rwra_space_false ha, ih.2]
        simp [specSquashWsRuns, ha]
      · rw [rwra_space_true ha, ih.2]
        simp [List.dropWhile_cons, ha]
    · have ha' : jsIsSpace a = false := by simpa using ha
      constructor
      · rw [rwra_nonspace ha', ih.1]
        simp [specSquashWsRuns, ha']
      · rw [rwra_nonspace ha', ih.1]
        simp [List.dropWhile_cons, ha', specSquashWsRuns]

lemma cha_eq_spec : ∀ l : JStr,
    collapseHyphensAux false l = specCollapseHyphenRuns l ∧
    collapseHyphensAux true l = specCollapseHyphenRuns (l.dropWhile (fun m => m == hyphen)) := by
  intro l
  induction l with
  | nil => constructor <;> simp [specCollapseHyphenRuns, collapseHyphensAux]
  | cons a t ih =>
    by_cases ha : a = hyphen
    · subst ha
      constructor
      · rw [cha_hyphen_false, ih.2]
        simp [specCollapseHyphenRuns]
      · rw [cha_hyphen_true, ih.2]
        simp [List.dropWhile_cons]
    · have ha' : (a == hyphen) = false := beq_eq_false_iff_ne.mpr ha
      constructor
      · rw [cha_ne ha, ih.1]
        simp [specCollapseHyphenRuns, ha']
      · rw [cha_ne ha, ih.1]
        simp [List.dropWhile_cons, ha', specCollapseHyphenRuns]

lemma slugify_eq_spec (l : JStr) : slugify l = slugifySpec l := by
  unfold slugify slugifySpec replaceWsRuns collapseHyphens
  rw [(rwra_eq_spec _).1, (cha_eq_spec _).1]

lemma displayTitle_eq (file : JStr) :
    displayTitle file = hyphensToSpaces (replaceFirst mdExt [] file) := rfl

lemma filter_ne_of_notMem {fs : List (JStr × JStr × JStr)} {n : JStr}
    (h : ∀ f ∈ fs, f.1 ≠ n) : fs.filter (fun f => !(f.1 == n)) = fs := by
  apply List.filter_eq_self.mpr
  intro f hf
  simp [h f hf]

lemma readFile_writeFile_self (fs : List (JStr × JStr × JStr)) (n c d : JStr) :
    readFile (writeFile fs n c d) n = some c := by
  unfold readFile writeFile
  rw [List.find?_append]
  have h1 : (fs.filter (fun f => !(f.1 == n))).find? (fun f => f.1 == n) = none := by
    apply List.find?_eq_none.mpr
    intro x hx
    have := (List.mem_filter.mp hx).2
    simp at this
    simp [this]
  rw [h1]
  simp [List.find?]

lemma read_after_save {T T' : JStr} (hTT : slugify T = slugify T') (C : JStr)
    (s : NoteStore) : handleReadNote T (handleSaveNote T' C s).2
      = (⟨jstr "text", C⟩, ensureNotesDir (handleSaveNote T' C s).2) := by
  unfold handleReadNote handleSaveNote ensureNotesDir
  dsimp only
  rw [hTT, readFile_writeFile_self]

lemma writeFile_twice_length (fs : List (JStr × JStr × JStr)) (n c c' d d' : JStr) :
    (writeFile (writeFile fs n c d) n c' d').length = (writeFile fs n c d).length := by
  unfold writeFile
  rw [List.filter_append]
  have h1 : (fs.filter (fun f => !(f.1 == n))).filter (fun f => !(f.1 == n))
      = fs.filter (fun f => !(f.1 == n)) := by
    simp [List.filter_filter]
  have h2 : ([(n, c, d)] : List (JStr × JStr × JStr)).filter (fun f => !(f.1 == n)) = [] := by
    simp
  rw [h1, h2]
  simp

lemma endsWithMd_append (l : JStr) : endsWithMd (l ++ mdExt) = true := by
  unfold endsWithMd
  exact List.isSuffixOf_iff_suffix.mpr (List.suffix_append l mdExt)

lemma mdExt_eq : mdExt = [46, 109, 100] := by decide

lemma replaceFirst_strip (l : JStr) (h : ∀ n ∈ l, n ≠ 46) :
    replaceFirst mdExt [] (l ++ mdExt) = l := by
  induction l with
  | nil => decide
  | cons c cs ih =>
    have hc : c ≠ 46 := h c (List.mem_cons_self _ _)
    have hpre : mdExt.isPrefixOf (c :: (cs ++ mdExt)) = false := by
      rw [mdExt_eq]
      simp [List.isPrefixOf]
      intro hcontra
      exact absurd hcontra.symm hc
    show replaceFirst mdExt [] (c :: (cs ++ mdExt)) = c :: cs
    unfold replaceFirst
    rw [hpre]
    simp only [Bool.false_eq_true, if_false]
    rw [ih (fun x hx => h x (List.mem_cons_of_mem _ hx))]

lemma slugify_no_dot {T : JStr} : ∀ n ∈ slugify T, n ≠ 46 := by
  intro n hn
  have := slugify_mem_slugChar hn
  simp [slugChar, hyphen] at this
  omega

lemma displayTitle_of_slug (T : JStr) :
    displayTitle (slugify T ++ mdExt) = hyphensToSpaces (slugify T) := by
  rw [displayTitle_eq, replaceFirst_strip _ slugify_no_dot]

lemma saveAll_files : ∀ (ps : List (JStr × JStr)) (s : NoteStore),
    (∀ p ∈ ps, ∀ f ∈ s.files, f.1 ≠ slugify p.1 ++ mdExt) →
    (ps.map (fun p => slugify p.1 ++ mdExt)).Nodup →
    (saveAll ps s).files
      = s.files ++ ps.map (fun p => (slugify p.1 ++ mdExt, p.2, s.today)) := by
  intro ps
  induction ps with
  | nil => intro s _ _; simp [saveAll]
  | cons p ps' ih =>
    intro s hfresh hnd
    have hstep : (handleSaveNote p.1 p.2 s).2
        = ⟨true, s.files ++ [(slugify p.1 ++ mdExt, p.2, s.today)], s.today⟩ := by
      unfold handleSaveNote ensureNotesDir writeFile
      simp only
      rw [filter_ne_of_notMem (fun f hf => hfresh p (List.mem_cons_self _ _) f hf)]
    have hsa : saveAll (p :: ps') s = saveAll ps' (handleSaveNote p.1 p.2 s).2 := rfl
    rw [hsa, hstep]
    simp only [List.map_cons] at hnd
    rw [List.nodup_cons] at hnd
    have ih2 := ih ⟨true, s.files ++ [(slugify p.1 ++ mdExt, p.2, s.today)], s.today⟩
      (by
        intro q hq f hf
        simp only at hf
        rcases List.mem_append.mp hf with hf1 | hf2
        · exact hfresh q (List.mem_cons_of_mem _ hq) f hf1
        · simp only [List.mem_singleton] at hf2
          subst hf2
          intro hcontra
          apply hnd.1
          have hmem := List.mem_map_of_mem (fun r => slugify r.1 ++ mdExt) hq
          simp only at hcontra
          rw [hcontra]
          exact hmem)
      hnd.2
    rw [ih2]
    simp

/-- C1: read after save returns exactly the saved content, regardless of the
prior store state, and a second save under the same title wins. -/
theorem save_read_roundtrip (s : NoteStore) (T C D1 D2 : JStr) :
    (handleReadNote T (handleSaveNote T C s).2).1.text = C ∧
    (handleReadNote T (handleSaveNote T D2 (handleSaveNote T D1 s).2).2).1.text = D2 := by
  constructor
  · rw [read_after_save rfl]
  · rw [read_after_save rfl]

/-- C2: slugify is idempotent. -/
theorem slugify_idempotent (l : JStr) : slugify (slugify l) = slugify l :=
  slugify_fixpoint (fun _ hn => slugify_mem_slugChar hn) (slugify_noConsec l)

/-- C3: slugify coincides with the spec's reference pipeline (lower-case,
trim, remove non-word/space/hyphen characters, replace whitespace runs by a
single hyphen, collapse hyphen runs), and maps "Project Ideas" to
"project-ideas". -/
theorem slugify_matches_spec_pipeline :
    (∀ l : JStr, slugify l = slugifySpec l) ∧
    slugify (jstr "Project Ideas") = jstr "project-ideas" :=
  ⟨slugify_eq_spec, by decide⟩

/-- C4: when the derived filename is absent, read_note returns a non-fatal
text result carrying that filename; when present, it returns the full
content as text. -/
theorem read_note_found_cases (s : NoteStore) (T : JStr) :
    (readFile s.files (slugify T ++ mdExt) = none →
      (handleReadNote T s).1
        = ⟨jstr "text", jstr "Note not found: " ++ (slugify T ++ mdExt)⟩) ∧
    (∀ c, readFile s.files (slugify T ++ mdExt) = some c →
      (handleReadNote T s).1 = ⟨jstr "text", c⟩) := by
  unfold handleReadNote ensureNotesDir
  dsimp only
  constructor
  · intro h
    rw [h]
  · intro c h
    rw [h]

theorem read_note_found_cases_witness :
    readFile (emptyStore (jstr "d")).files (slugify (jstr "nonexistent title") ++ mdExt)
      = none ∧
    (handleReadNote (jstr "nonexistent title") (emptyStore (jstr "d"))).1
      = ⟨jstr "text",
         jstr "Note not found: " ++ (slugify (jstr "nonexistent title") ++ mdExt)⟩ :=
  ⟨by decide, (read_note_found_cases (emptyStore (jstr "d")) (jstr "nonexistent title")).1
    (by decide)⟩

/-- C5: dispatching a name outside the registry yields a text payload naming
the unknown tool (not a protocol error), leaves the store unchanged, and any
subsequent request behaves exactly as before. -/
theorem unknown_tool_dispatch (name : JStr) (args : ToolArgs) (s : NoteStore)
    (h1 : name ≠ jstr "save_note") (h2 : name ≠ jstr "list_notes")
    (h3 : name ≠ jstr "read_note") :
    processToolCall name args s
      = some (⟨jstr "text", jstr "Unknown tool: " ++ name⟩, s) ∧
    ∀ (s' : NoteStore),
      processToolCall name args s
        = some (⟨jstr "text", jstr "Unknown tool: " ++ name⟩, s') →
      ∀ (n2 : JStr) (a2 : ToolArgs), processToolCall n2 a2 s' = processToolCall n2 a2 s := by
  have b1 : (name == jstr "save_note") = false := beq_eq_false_iff_ne.mpr h1
  have b2 : (name == jstr "list_notes") = false := beq_eq_false_iff_ne.mpr h2
  have b3 : (name == jstr "read_note") = false := beq_eq_false_iff_ne.mpr h3
  have hmain : processToolCall name args s
      = some (⟨jstr "text", jstr "Unknown tool: " ++ name⟩, s) := by
    unfold processToolCall
    rw [b1, b2, b3]
    simp
  refine ⟨hmain, ?_⟩
  intro s' heq n2 a2
  rw [hmain] at heq
  simp only [Option.some.injEq, Prod.mk.injEq] at heq
  rw [heq.2]

theorem unknown_tool_dispatch_witness :
    jstr "delete_note" ≠ jstr "save_note" ∧
    jstr "delete_note" ≠ jstr "list_notes" ∧
    jstr "delete_note" ≠ jstr "read_note" ∧
    processToolCall (jstr "delete_note") ⟨none, none⟩ (emptyStore (jstr "d"))
      = some (⟨jstr "text", jstr "Unknown tool: " ++ jstr "delete_note"⟩,
              emptyStore (jstr "d")) :=
  ⟨by decide, by decide, by decide,
    (unknown_tool_dispatch (jstr "delete_note") ⟨none, none⟩ (emptyStore (jstr "d"))
      (by decide) (by decide) (by decide)).1⟩

/-- C6, counterexample: on a directory containing "x.mda.md", the displayed
title is "xa.md" (the first occurrence of ".md", at index 1, is removed),
not "x.mda" (the extension removed), so the claimed derivation rule is false
for this directory state. -/
theorem list_title_derivation_cex :
    endsWithMd (jstr "x.mda.md") = true ∧
    displayTitle (jstr "x.mda.md") = jstr "xa.md" ∧
    claimedTitleOf (jstr "x.mda.md") = jstr "x.mda" ∧
    (handleListNotes cexStore).1.text
      = jstr "Available notes:\n\n- **xa.md** (x.mda.md) - Modified: 2024-01-01" ∧
    displayTitle (jstr "x.mda.md") ≠ claimedTitleOf (jstr "x.mda.md") := by
  decide

/-- C6, amended: list_notes enumerates exactly the files ending in ".md",
deriving each displayed title by removing the first occurrence of ".md" and
replacing hyphens with spaces (for files the system itself created this
coincides with removing the extension, since slugs contain no dot); after
saving N notes with pairwise distinct slugs into an empty store there are
exactly N entries, whose filenames are the slugs with ".md" appended and
whose titles are the slugs with hyphens replaced by spaces. -/
theorem list_notes_enumeration (ps : List (JStr × JStr)) (d : JStr)
    (hnd : (ps.map (fun p => slugify p.1 ++ mdExt)).Nodup) :
    (listedFiles (saveAll ps (emptyStore d))).length = ps.length ∧
    (listedFiles (saveAll ps (emptyStore d))).map (fun f => f.1)
      = ps.map (fun p => slugify p.1 ++ mdExt) ∧
    (∀ f ∈ listedFiles (saveAll ps (emptyStore d)), endsWithMd f.1 = true ∧
      displayTitle f.1 = hyphensToSpaces (replaceFirst mdExt [] f.1)) ∧
    (listedFiles (saveAll ps (emptyStore d))).map (fun f => displayTitle f.1)
      = ps.map (fun p => hyphensToSpaces (slugify p.1)) := by
  have hfiles : (saveAll ps (emptyStore d)).files
      = ps.map (fun p => (slugify p.1 ++ mdExt, p.2, d)) := by
    have h := saveAll_files ps (emptyStore d)
      (by intro p _ f hf; simp [emptyStore] at hf) hnd
    simpa [emptyStore] using h
  have hlist : listedFiles (saveAll ps (emptyStore d))
      = ps.map (fun p => (slugify p.1 ++ mdExt, p.2, d)) := by
    unfold listedFiles
    rw [hfiles]
    apply List.filter_eq_self.mpr
    intro f hf
    rcases List.mem_map.mp hf with ⟨p, _, rfl⟩
    exact endsWithMd_append _
  refine ⟨?_, ?_, ?_, ?_⟩
  · rw [hlist, List.length_map]
  · rw [hlist, List.map_map]
    rfl
  · intro f hf
    rw [hlist] at hf
    rcases List.mem_map.mp hf with ⟨p, _, rfl⟩
    exact ⟨endsWithMd_append _, displayTitle_eq _⟩
  · rw [hlist, List.map_map]
    apply List.map_congr_left
    intro p _
    exact displayTitle_of_slug p.1

theorem list_notes_enumeration_witness :
    (([(jstr "Project Ideas", jstr "# Ideas"), (jstr "note b", jstr "c")].map
        (fun p => slugify p.1 ++ mdExt)).Nodup) ∧
    (listedFiles (saveAll [(jstr "Project Ideas", jstr "# Ideas"), (jstr "note b", jstr "c")]
        (emptyStore (jstr "2024-01-01")))).length = 2 :=
  ⟨by decide,
    (list_notes_enumeration [(jstr "Project Ideas", jstr "# Ideas"), (jstr "note b", jstr "c")]
      (jstr "2024-01-01") (by decide)).1⟩

/-- C7: when the directory holds no files ending in ".md" (whether the
directory already existed or not), list_notes answers with the distinct
"No notes found" message rather than an empty listing. -/
theorem list_notes_empty_message (s : NoteStore)
    (h : s.files.filter (fun f => endsWithMd f.1) = []) :
    (handleListNotes s).1 = ⟨jstr "text", jstr "No notes found in ~/dev-notes/"⟩ ∧
    (handleListNotes s).2.dirExists = true := by
  unfold handleListNotes ensureNotesDir
  dsimp only
  rw [h]
  exact ⟨rfl, rfl⟩

theorem list_notes_empty_message_witness :
    ((emptyStore (jstr "d")).files.filter (fun f => endsWithMd f.1) = []) ∧
    (handleListNotes (emptyStore (jstr "d"))).1
      = ⟨jstr "text", jstr "No notes found in ~/dev-notes/"⟩ :=
  ⟨by decide, (list_notes_empty_message (emptyStore (jstr "d")) (by decide)).1⟩

/-- C8: two titles with the same slug address the same note: a read under
either title sees content saved under the other, and a later save under
either overwrites in place (the store keeps the same number of files). -/
theorem same_slug_same_note (T1 T2 C D : JStr) (s : NoteStore)
    (h : slugify T1 = slugify T2) :
    (handleReadNote T2 (handleSaveNote T1 C s).2).1.text = C ∧
    (handleReadNote T1 (handleSaveNote T2 D (handleSaveNote T1 C s).2).2).1.text = D ∧
    (handleSaveNote T2 D (handleSaveNote T1 C s).2).2.files.length
      = (handleSaveNote T1 C s).2.files.length := by
  refine ⟨?_, ?_, ?_⟩
  · rw [read_after_save h.symm]
  · rw [read_after_save h]
  · unfold handleSaveNote ensureNotesDir
    dsimp only
    rw [← h]
    exact writeFile_twice_length s.files (slugify T1 ++ mdExt) C D s.today s.today

theorem same_slug_same_note_witness :
    slugify (jstr "Project Ideas") = slugify (jstr "project ideas") ∧
    (handleReadNote (jstr "project ideas")
      (handleSaveNote (jstr "Project Ideas") (jstr "# Ideas") (emptyStore (jstr "d"))).2).1.text
      = jstr "# Ideas" :=
  ⟨by decide,
    (same_slug_same_note (jstr "Project Ideas") (jstr "project ideas") (jstr "# Ideas")
      (jstr "x") (emptyStore (jstr "d")) (by decide)).1⟩

/-- C9: every character of a slug is a non-whitespace, non-upper-case word
character or a hyphen, and no two hyphens are adjacent, so the derived
filenames are filesystem-safe. -/
theorem slug_output_filesystem_safe (l : JStr) :
    (∀ n ∈ slugify l, jsIsSpace n = false ∧ ¬(65 ≤ n ∧ n ≤ 90) ∧
      (jsIsWordChar n = true ∨ n = hyphen)) ∧
    noConsecHyphens (slugify l) = true := by
  refine ⟨?_, slugify_noConsec l⟩
  intro n hn
  have h := slugify_mem_slugChar hn
  refine ⟨slugChar_not_space h, ?_, ?_⟩
  · simp [slugChar, hyphen] at h
    omega
  · simp [slugChar, hyphen] at h
    simp [jsIsWordChar, hyphen]
    omega

theorem slug_output_filesystem_safe_witness :
    112 ∈ slugify (jstr "Project Ideas") ∧
    (jsIsSpace 112 = false ∧ ¬(65 ≤ 112 ∧ 112 ≤ 90) ∧
      (jsIsWordChar 112 = true ∨ 112 = hyphen)) :=
  ⟨by decide, (slug_output_filesystem_safe (jstr "Project Ideas")).1 112 (by decide)⟩

/-- C10: list_notes and read_note leave every stored file untouched: their
whole state effect is `ensureNotesDir`, which only creates the directory and
keeps the file map identical. -/
theorem list_read_no_mutation (s : NoteStore) (T : JStr) :
    (handleListNotes s).2 = ensureNotesDir s ∧
    (handleReadNote T s).2 = ensureNotesDir s ∧
    (ensureNotesDir s).files = s.files ∧
    (ensureNotesDir s).dirExists = true := by
  refine ⟨?_, ?_, rfl, rfl⟩
  · unfold handleListNotes
    dsimp only
    split
    · rfl
    · rfl
  · unfold handleReadNote
    dsimp only
    rcases readFile (ensureNotesDir s).files (slugify T ++ mdExt) with _ | c
    · rfl
    · rfl
